import Mathlib

/-!
Verification of the Superviseur-solaire button/buffer library.

Part 1 embeds the generic circular buffer `RingBuffer<T, N>` from
`RingBuffer.hpp`.  The C++ object holds a storage array `T buffer[N]`,
pointers `pHead`, `pTail`, `pStart = &buffer[0]`, `pEnd = &buffer[N-1]`,
and an `int size`.  Pointers into the array are modelled as `Nat` offsets
from `pStart` (so `pEnd` is offset `N - 1`), the storage as a total map
`Nat → T` (the constructor leaves the array uninitialised, so the initial
contents are an arbitrary map supplied by the environment), and the C++
`int` fields as `Int`.

Part 2 models the `MButton` press detector.  Only the header `MButton.h`
is in the sources; the state machine body lives in `MButton.cpp`, which is
absent, so the transition relation is modelled from the specification
(section 4.2) and marked as such on each definition.  The field and ISR
declarations themselves are transcribed from the header.
-/

namespace SolarSupervisor

/-- State of a `RingBuffer<T, N>` from `RingBuffer.hpp`: storage map,
head and tail offsets into the array, and the signed element count. -/
structure RingBuffer (T : Type) (N : Nat) where
  buffer : Nat → T
  pHead : Nat
  pTail : Nat
  size : Int
deriving Nonempty

namespace RingBuffer

/-- The constructor `RingBuffer()`: `pHead = pTail = pStart`, `size = 0`.
The C++ array contents are uninitialised, represented by an arbitrary
initial storage map `mem`. -/
def init (T : Type) (N : Nat) (mem : Nat → T) : RingBuffer T N :=
  { buffer := mem, pHead := 0, pTail := 0, size := 0 }

/-- `void Push(T *t)`: if `size == N` return; else write `*t` at `pTail`,
advance `pTail` with wrap past `pEnd` (offset `N - 1`), increment `size`. -/
def Push (rb : RingBuffer T N) (t : T) : RingBuffer T N :=
  if rb.size = (N : Int) then rb
  else
    let q := rb.pTail + 1
    { buffer := fun i => if i = rb.pTail then t else rb.buffer i
      pHead := rb.pHead
      pTail := if q > N - 1 then 0 else q
      size := rb.size + 1 }

/-- `void Pop(T *t)`: if `size == 0` return (leaving `*t` unchanged); else
copy the head element into `*t`, advance `pHead` with wrap, decrement
`size`.  Returns the final `*t` together with the new buffer state. -/
def Pop (rb : RingBuffer T N) (t : T) : T × RingBuffer T N :=
  if rb.size = 0 then (t, rb)
  else
    let q := rb.pHead + 1
    (rb.buffer rb.pHead,
     { buffer := rb.buffer
       pHead := if q > N - 1 then 0 else q
       pTail := rb.pTail
       size := rb.size - 1 })

/-- `void Get(T *t, int n)`: if `n < 0 || n > size` return (leaving `*t`
unchanged); else copy `*(pHead + n)` (wrapped by `-N` past `pEnd`) into
`*t`.  Returns the final `*t`. -/
def Get (rb : RingBuffer T N) (t : T) (n : Int) : T :=
  if n < 0 ∨ n > rb.size then t
  else
    let p := rb.pHead + n.toNat
    rb.buffer (if p > N - 1 then p - N else p)

/-- Structural well-formedness: offsets in range, count within capacity,
and the tail sits `size` slots past the head modulo `N`.  Established by
`init` (for `0 < N`) and preserved by `Push` and `Pop`. -/
def WF (rb : RingBuffer T N) : Prop :=
  rb.pHead < N ∧ rb.pTail < N ∧ 0 ≤ rb.size ∧ rb.size ≤ (N : Int) ∧
    rb.pTail = (rb.pHead + rb.size.toNat) % N

/-- Logical contents, head first: slot `i` of the abstraction lives at
array offset `(pHead + i) % N`. -/
def toList (rb : RingBuffer T N) : List T :=
  (List.range rb.size.toNat).map fun i => rb.buffer ((rb.pHead + i) % N)

/-- A call against the buffer interface: `Push` with a value, or `Pop`. -/
inductive BufOp (T : Type) where
  | push (v : T)
  | pop

/-- Run a sequence of calls against the C++ buffer, collecting the value
delivered through `*t` by each `Pop` (`d` is the prior contents of the
caller's `*t`). -/
def implExec (d : T) : List (BufOp T) → RingBuffer T N → RingBuffer T N × List T
  | [], rb => (rb, [])
  | .push v :: ops, rb => implExec d ops (rb.Push v)
  | .pop :: ops, rb =>
    let pr := rb.Pop d
    let r := implExec d ops pr.2
    (r.1, pr.1 :: r.2)

/-- The abstract FIFO queue the buffer is meant to implement: a plain
list, pushes append at the back, pops take the front. -/
def specExec (d : T) : List (BufOp T) → List T → List T × List T
  | [], q => (q, [])
  | .push v :: ops, q => specExec d ops (q ++ [v])
  | .pop :: ops, q =>
    let r := specExec d ops q.tail
    (r.1, q.headD d :: r.2)

/-- The caller discipline demanded by the comments in `RingBuffer.hpp`:
test `Size() < N` before `Push` and `Size() > 0` before `Pop`. -/
def Legal (N : Nat) : List (BufOp T) → List T → Prop
  | [], _ => True
  | .push v :: ops, q => q.length < N ∧ Legal N ops (q ++ [v])
  | .pop :: ops, q => q ≠ [] ∧ Legal N ops q.tail

/-- A call against the full buffer interface, including `Get`. -/
inductive RbOp (T : Type) where
  | push (v : T)
  | pop
  | get (n : Int)

/-- Run an arbitrary call sequence and return the final buffer state;
`Get` writes only through the caller's `*t`, so it leaves the buffer
unchanged. -/
def rbExec (d : T) : List (RbOp T) → RingBuffer T N → RingBuffer T N
  | [], rb => rb
  | .push v :: ops, rb => rbExec d ops (rb.Push v)
  | .pop :: ops, rb => rbExec d ops (rb.Pop d).2
  | .get _ :: ops, rb => rbExec d ops rb

/-- Successful calls along a sequence: pushes that inserted (the
`size == N` guard not taken) and pops that removed (the `size == 0`
guard not taken). -/
def succCounts (d : T) : List (RbOp T) → RingBuffer T N → Nat × Nat
  | [], _ => (0, 0)
  | .push v :: ops, rb =>
    let c := succCounts d ops (rb.Push v)
    if rb.size = (N : Int) then c else (c.1 + 1, c.2)
  | .pop :: ops, rb =>
    let c := succCounts d ops (rb.Pop d).2
    if rb.size = 0 then c else (c.1, c.2 + 1)
  | .get _ :: ops, rb => succCounts d ops rb

end RingBuffer

namespace MButton

/-- `#define DELAY_DEBOUNCE 200` from `MButton.h`: debounce delay (ms). -/
def DELAY_DEBOUNCE : Nat := 200

/-- `#define DELAY_LONG_PRESS 1000` from `MButton.h`: long-press delay
(ms). -/
def DELAY_LONG_PRESS : Nat := 1000

/-- Logic level read on a pin: LOW means pressed, HIGH means released. -/
inductive Level where
  | low
  | high
deriving DecidableEq

/-- Action kind reported by `getAction()`: 1 means pressed, 2 means long
pressed. -/
inductive Kind where
  | pressed
  | longPressed
deriving DecidableEq

/-- The single outstanding result: which pin, and which kind of press. -/
structure PendingAction where
  pin : Nat
  kind : Kind
deriving DecidableEq

/-- Phase of the current press sequence: no lock, a locked in-flight
sequence (locked pin and press start time in ms), or a latched
unconsumed action. -/
inductive Phase where
  | idle
  | armedDown (pin : Nat) (start : Nat)
  | resolved
deriving DecidableEq

/-- Detector state shared between interrupt and poll context: the phase
of the current sequence and the latched pending action, if any. -/
structure Detector where
  phase : Phase
  pending : Option PendingAction
deriving DecidableEq

/-- Interrupt-context stimulus: an edge notification on a pin carrying
the new level and the millisecond timestamp, or the one-shot timer
expiry. -/
inductive Event where
  | edge (pin : Nat) (level : Level) (time : Nat)
  | timer

/-- Detector state right after `begin()`: idle, nothing pending. -/
def dinit : Detector := ⟨.idle, none⟩

/-- Modelled from the spec: `toProcess()` is true iff the state is
Resolved (section 4.2); `MButton.cpp`, which implements it over the
`_toProcess` flag, is not in the sources. -/
def toProcess (d : Detector) : Bool :=
  match d.phase with
  | .resolved => true
  | _ => false

/-- Modelled from the spec: the interrupt-driven transition function of
section 4.2 (rules 1 to 3); `MButton.cpp`, which implements it in the
per-pin ISRs and the timer ISR, is not in the sources.  A LOW edge arms
an idle detector and is otherwise ignored (Resolved, bounce on the same
pin, or another locked pin).  A HIGH edge matters only in ArmedDown on
the locked pin: before `DELAY_DEBOUNCE` it is a bounce, afterwards it
latches a Pressed action.  Timer expiry in ArmedDown latches a
LongPressed action; in any other phase a stale firing is ignored. -/
def step (d : Detector) (e : Event) : Detector :=
  match e with
  | .edge p lvl now =>
    match lvl with
    | .low =>
      match d.phase with
      | .idle => { phase := .armedDown p now, pending := d.pending }
      | _ => d
    | .high =>
      match d.phase with
      | .armedDown q start =>
        if p = q then
          if now - start < DELAY_DEBOUNCE then d
          else { phase := .resolved, pending := some ⟨q, .pressed⟩ }
        else d
      | _ => d
  | .timer =>
    match d.phase with
    | .armedDown q _ => { phase := .resolved, pending := some ⟨q, .longPressed⟩ }
    | _ => d

/-- Modelled from the spec: `processed()` (section 4.2 transition 4)
clears the pending action and the pin lock and returns to Idle when
Resolved, and is a no-op otherwise; `MButton.cpp`, which implements it,
is not in the sources. -/
def processed (d : Detector) : Detector :=
  match d.phase with
  | .resolved => ⟨.idle, none⟩
  | _ => d

/-- A field of the `MButton` class together with its `volatile`
qualification, transcribed from the declarations in `MButton.h`. -/
structure FieldDecl where
  name : String
  isVolatile : Bool
deriving DecidableEq

/-- The private data members of `MButton` as declared in `MButton.h`:
only `_num`, `_toProcess` and `_action` carry the `volatile`
qualifier. -/
def mbuttonFields : List FieldDecl :=
  [⟨"_num", true⟩, ⟨"_toProcess", true⟩, ⟨"_action", true⟩,
   ⟨"_okButton", false⟩, ⟨"_oldNum", false⟩, ⟨"_oldTime", false⟩,
   ⟨"_oldLevel", false⟩]

/-- Modelled from the spec: section 5 declares all DetectorState fields
shared between interrupt context (writers) and main-loop context
(readers, except `processed()` which writes, clearing the pending
action and the pin lock); `MButton.cpp`, which contains the accesses,
is not in the sources.  DetectorState per section 3 comprises the
pending-action fields (`_num`, `_action`, `_toProcess`) and the
sequence-tracking fields (`_okButton` the debounce guard, `_oldNum`
the locked pin, `_oldTime` the press start time, `_oldLevel` the last
level). -/
def sharedFields : List String :=
  ["_num", "_toProcess", "_action", "_okButton", "_oldNum", "_oldTime",
   "_oldLevel"]

/-- The statically-addressable interrupt entry points declared in
`MButton.h`, paired with the pin each one serves. -/
def isrEntryPoints : List (String × Nat) :=
  [("buttonInterrupt12", 12), ("buttonInterrupt13", 13),
   ("buttonInterrupt14", 14), ("buttonInterrupt27", 27)]

/-- Modelled from the spec: `begin()` attaches, for each requested pin,
the statically declared ISR serving that pin (section 9: fixed
enumerated per-pin interrupt entry points; "Here can add ISR for other
pins" in `MButton.h`); a pin with no declared entry point cannot be
monitored.  `MButton.cpp`, which contains the body of `begin`, is not
in the sources. -/
def attachableISR (p : Nat) : Option String :=
  (isrEntryPoints.find? fun e => e.2 == p).map Prod.fst

end MButton

namespace RingBuffer

theorem toList_length (rb : RingBuffer T N) :
    rb.toList.length = rb.size.toNat := by
  simp [toList]

theorem wf_init (T : Type) (N : Nat) (mem : Nat → T) (hN : 0 < N) :
    WF (init T N mem) := by
  refine ⟨hN, hN, le_refl 0, ?_, ?_⟩ <;>
    simp [init, Nat.mod_eq_of_lt hN]

theorem toList_init (T : Type) (N : Nat) (mem : Nat → T) :
    (init T N mem).toList = [] := by
  simp [toList, init]

/-- The conditional wrap `if x > N - 1 then 0 else x` used after advancing
a pointer coincides with `% N` when `x ≤ N`. -/
theorem wrap_eq_mod (N x : Nat) (h0 : 0 < N) (hx : x ≤ N) :
    (if x > N - 1 then 0 else x) = x % N := by
  by_cases h : x > N - 1
  · have hxN : x = N := by omega
    simp [h, hxN, Nat.mod_self]
  · have hlt : x < N := by omega
    simp [h, Nat.mod_eq_of_lt hlt]

/-- The subtractive wrap `if p > N - 1 then p - N else p` used by `Get`
coincides with `% N` when `p < 2 * N`. -/
theorem wrap_sub_eq_mod (N p : Nat) (h0 : 0 < N) (hp : p < 2 * N) :
    (if p > N - 1 then p - N else p) = p % N := by
  by_cases h : p > N - 1
  · have hge : N ≤ p := by omega
    have hlt : p - N < N := by omega
    simp [h, Nat.mod_eq_sub_mod hge, Nat.mod_eq_of_lt hlt]
  · have hlt : p < N := by omega
    simp [h, Nat.mod_eq_of_lt hlt]

theorem push_full (rb : RingBuffer T N) (t : T) (h : rb.size = (N : Int)) :
    rb.Push t = rb := by
  simp [Push, h]

theorem push_sim (rb : RingBuffer T N) (t : T) (hwf : rb.WF)
    (hlt : rb.size < (N : Int)) :
    (rb.Push t).WF ∧ (rb.Push t).toList = rb.toList ++ [t] := by
  obtain ⟨hH, hT, h0, hsN, htl⟩ := hwf
  have hN : 0 < N := by omega
  have hne : ¬ rb.size = (N : Int) := by omega
  have hsize : rb.size.toNat < N := by omega
  have hwrap : (if rb.pTail + 1 > N - 1 then 0 else rb.pTail + 1) =
      (rb.pTail + 1) % N := wrap_eq_mod N (rb.pTail + 1) hN (by omega)
  have htl2 : (rb.pTail + 1) % N = (rb.pHead + (rb.size + 1).toNat) % N := by
    have : (rb.size + 1).toNat = rb.size.toNat + 1 := by omega
    rw [this, htl, Nat.mod_add_mod, ← Nat.add_assoc]
  constructor
  · refine ⟨?_, ?_, ?_, ?_, ?_⟩ <;>
        simp only [Push, hne, if_false, hwrap]
    · exact hH
    · exact Nat.mod_lt _ hN
    · omega
    · omega
    · exact htl2
  · have hlen : (rb.size + 1).toNat = rb.size.toNat + 1 := by omega
    simp only [Push, hne, if_false, toList, hlen, List.range_succ,
      List.map_append, List.map_cons, List.map_nil]
    congr 1
    · apply List.map_congr_left
      intro i hi
      have hilt : i < rb.size.toNat := List.mem_range.mp hi
      have hne2 : (rb.pHead + i) % N ≠ rb.pTail := by
        rw [htl]
        intro hmod
        have hmodeq : i ≡ rb.size.toNat [MOD N] :=
          Nat.ModEq.add_left_cancel' rb.pHead hmod
        have : i % N = rb.size.toNat % N := hmodeq
        rw [Nat.mod_eq_of_lt (by omega), Nat.mod_eq_of_lt hsize] at this
        omega
      simp [hne2]
    · rw [htl]
      simp

theorem pop_sim (rb : RingBuffer T N) (t : T) (hwf : rb.WF)
    (hpos : 0 < rb.size) :
    (rb.Pop t).2.WF ∧ rb.toList = (rb.Pop t).1 :: (rb.Pop t).2.toList := by
  obtain ⟨hH, hT, h0, hsN, htl⟩ := hwf
  have hN : 0 < N := by omega
  have hne : ¬ rb.size = 0 := by omega
  obtain ⟨m, hm⟩ : ∃ m, rb.size.toNat = m + 1 := ⟨rb.size.toNat - 1, by omega⟩
  have hwrap : (if rb.pHead + 1 > N - 1 then 0 else rb.pHead + 1) =
      (rb.pHead + 1) % N := wrap_eq_mod N (rb.pHead + 1) hN (by omega)
  have hm2 : (rb.size - 1).toNat = m := by omega
  constructor
  · refine ⟨?_, ?_, ?_, ?_, ?_⟩ <;>
        simp only [Pop, hne, if_false, hwrap]
    · exact Nat.mod_lt _ hN
    · exact hT
    · omega
    · omega
    · rw [hm2, Nat.mod_add_mod, htl, hm]
      congr 1
      omega
  · simp only [Pop, hne, if_false, toList, hm, hm2, hwrap,
      List.range_succ_eq_map, List.map_cons, List.map_map]
    congr 1
    · rw [Nat.add_zero, Nat.mod_eq_of_lt hH]
    · apply List.map_congr_left
      intro i hi
      simp only [Function.comp_apply, Nat.succ_eq_add_one, Nat.mod_add_mod]
      congr 2
      omega

theorem exec_sim (d : T) (ops : List (BufOp T)) :
    ∀ rb : RingBuffer T N, rb.WF → Legal N ops rb.toList →
      (implExec d ops rb).1.WF ∧
      (implExec d ops rb).1.toList = (specExec d ops rb.toList).1 ∧
      (implExec d ops rb).2 = (specExec d ops rb.toList).2 := by
  induction ops with
  | nil =>
    intro rb hwf _
    exact ⟨hwf, rfl, rfl⟩
  | cons op ops ih =>
    intro rb hwf hleg
    cases op with
    | push v =>
      obtain ⟨hlen, hleg2⟩ := hleg
      have hsize : rb.size < (N : Int) := by
        have := rb.toList_length
        obtain ⟨_, _, h0, _, _⟩ := hwf
        omega
      obtain ⟨hwf2, hlist⟩ := push_sim rb v hwf hsize
      rw [← hlist] at hleg2
      obtain ⟨ha, hb, hc⟩ := ih (rb.Push v) hwf2 hleg2
      exact ⟨ha, by simpa [implExec, specExec, hlist] using hb,
        by simpa [implExec, specExec, hlist] using hc⟩
    | pop =>
      obtain ⟨hne, hleg2⟩ := hleg
      have hpos : 0 < rb.size := by
        have := rb.toList_length
        obtain ⟨_, _, h0, _, _⟩ := hwf
        have : rb.toList ≠ [] := hne
        have hlen : rb.toList.length ≠ 0 := by
          simpa [List.length_eq_zero] using this
        omega
      obtain ⟨hwf2, hcons⟩ := pop_sim rb d hwf hpos
      have htail : rb.toList.tail = (rb.Pop d).2.toList := by rw [hcons]; rfl
      have hhead : rb.toList.headD d = (rb.Pop d).1 := by rw [hcons]; rfl
      rw [htail] at hleg2
      obtain ⟨ha, hb, hc⟩ := ih (rb.Pop d).2 hwf2 hleg2
      refine ⟨ha, ?_, ?_⟩ <;>
        simp only [implExec, specExec, htail, hhead, hb, hc]

theorem size_counts (d : T) (ops : List (RbOp T)) :
    ∀ rb : RingBuffer T N, 0 ≤ rb.size → rb.size ≤ (N : Int) →
      0 ≤ (rbExec d ops rb).size ∧ (rbExec d ops rb).size ≤ (N : Int) ∧
      (rbExec d ops rb).size + ((succCounts d ops rb).2 : Int) =
        rb.size + ((succCounts d ops rb).1 : Int) := by
  induction ops with
  | nil =>
    intro rb h0 hN
    simpa [rbExec, succCounts] using ⟨h0, hN⟩
  | cons op ops ih =>
    intro rb h0 hN
    cases op with
    | push v =>
      by_cases h : rb.size = (N : Int)
      · have hid : rb.Push v = rb := push_full rb v h
        obtain ⟨ha, hb, hc⟩ := ih (rb.Push v) (by rw [hid]; exact h0)
          (by rw [hid]; exact hN)
        refine ⟨by simpa [rbExec] using ha, by simpa [rbExec] using hb, ?_⟩
        simp only [rbExec, succCounts, h, if_true]
        rw [hc, hid]
        omega
      · have hsz : (rb.Push v).size = rb.size + 1 := by
          simp [Push, h]
        obtain ⟨ha, hb, hc⟩ := ih (rb.Push v) (by omega)
          (by rw [hsz]; omega)
        refine ⟨by simpa [rbExec] using ha, by simpa [rbExec] using hb, ?_⟩
        simp only [rbExec, succCounts, h, if_false]
        push_cast
        rw [hsz] at hc
        omega
    | pop =>
      by_cases h : rb.size = 0
      · have hid : (rb.Pop d).2 = rb := by
          simp [Pop, h]
        obtain ⟨ha, hb, hc⟩ := ih (rb.Pop d).2 (by rw [hid]; exact h0)
          (by rw [hid]; exact hN)
        refine ⟨by simpa [rbExec] using ha, by simpa [rbExec] using hb, ?_⟩
        simp only [rbExec, succCounts, h, if_true]
        rw [hc, hid]
        omega
      · have hsz : (rb.Pop d).2.size = rb.size - 1 := by
          simp [Pop, h]
        obtain ⟨ha, hb, hc⟩ := ih (rb.Pop d).2 (by omega)
          (by rw [hsz]; omega)
        refine ⟨by simpa [rbExec] using ha, by simpa [rbExec] using hb, ?_⟩
        simp only [rbExec, succCounts, h, if_false]
        push_cast
        rw [hsz] at hc
        omega
    | get n =>
      obtain ⟨ha, hb, hc⟩ := ih rb h0 hN
      exact ⟨by simpa [rbExec] using ha, by simpa [rbExec] using hb,
        by simpa [rbExec, succCounts] using hc⟩

end RingBuffer

namespace MButton

/-- Once the detector is Resolved, every interrupt-context event is
ignored: rules 1 to 3 of section 4.2 all leave a Resolved state
untouched. -/
theorem step_resolved (d : Detector) (e : Event)
    (h : d.phase = .resolved) : step d e = d := by
  cases e with
  | edge p lvl t => cases lvl <;> simp [step, h]
  | timer => simp [step, h]

end MButton

/-- Claim C1 (single-slot invariant): while the has-pending flag is true,
that is, the detector is Resolved with a latched pin/action pair, no
sequence of edge notifications and timer expirations changes the detector
state at all — in particular neither the latched pair nor the flag — so
the single pending action stays unconsumed and un-overwritten until
`processed()` is called. -/
theorem c1_single_slot (d : MButton.Detector) (a : MButton.PendingAction)
    (hflag : MButton.toProcess d = true) (hpend : d.pending = some a)
    (es : List MButton.Event) :
    es.foldl MButton.step d = d ∧ (es.foldl MButton.step d).pending = some a := by
  have hres : d.phase = .resolved := by
    unfold MButton.toProcess at hflag
    cases hp : d.phase with
    | idle => rw [hp] at hflag; simp at hflag
    | armedDown p s => rw [hp] at hflag; simp at hflag
    | resolved => rfl
  have hfold : es.foldl MButton.step d = d := by
    induction es with
    | nil => rfl
    | cons e es ih =>
      rw [List.foldl_cons, MButton.step_resolved d e hres]
      exact ih
  exact ⟨hfold, by rw [hfold]; exact hpend⟩

theorem c1_single_slot_witness :
    List.foldl MButton.step ⟨.resolved, some ⟨12, .pressed⟩⟩
        [.edge 13 .low 5, .edge 12 .high 250, .timer] =
      (⟨.resolved, some ⟨12, .pressed⟩⟩ : MButton.Detector) ∧
    (List.foldl MButton.step ⟨.resolved, some ⟨12, .pressed⟩⟩
        [.edge 13 .low 5, .edge 12 .high 250, .timer]).pending =
      some ⟨12, .pressed⟩ :=
  c1_single_slot ⟨.resolved, some ⟨12, .pressed⟩⟩ ⟨12, .pressed⟩ rfl rfl
    [.edge 13 .low 5, .edge 12 .high 250, .timer]

/-- Claim C2 (short press): from an idle detector with nothing pending, a
down-edge on pin A at time t0 followed by an up-edge on pin A after d ms
with `DELAY_DEBOUNCE ≤ d < DELAY_LONG_PRESS` latches exactly the pending
action (A, Pressed) and puts the detector in the Resolved state. -/
theorem c2_short_press (d : MButton.Detector) (A t0 dms : Nat)
    (hidle : d.phase = .idle) (hnone : d.pending = none)
    (h1 : MButton.DELAY_DEBOUNCE ≤ dms)
    (_h2 : dms < MButton.DELAY_LONG_PRESS) :
    MButton.step (MButton.step d (.edge A .low t0))
        (.edge A .high (t0 + dms)) =
      ⟨.resolved, some ⟨A, .pressed⟩⟩ := by
  have h3 : ¬ (dms < MButton.DELAY_DEBOUNCE) := by omega
  simp [MButton.step, hidle, hnone, h3]

theorem c2_short_press_witness :
    MButton.step (MButton.step MButton.dinit (.edge 12 .low 0))
        (.edge 12 .high (0 + 300)) =
      ⟨.resolved, some ⟨12, .pressed⟩⟩ :=
  c2_short_press MButton.dinit 12 0 300 rfl rfl (by decide) (by decide)

/-- Claim C3 (long press precedence): from an idle detector, a down-edge
on pin A with no up-edge delivered before the long-press timer fires
latches exactly the pending action (A, LongPressed); every subsequent
up-edge on pin A, at any times, before `processed()` is called produces
no second action and leaves the latched action unchanged. -/
theorem c3_long_press (A t0 : Nat) (ups : List Nat) :
    MButton.step (MButton.step MButton.dinit (.edge A .low t0)) .timer =
        ⟨.resolved, some ⟨A, .longPressed⟩⟩ ∧
      ups.foldl (fun d t => MButton.step d (.edge A .high t))
          ⟨.resolved, some ⟨A, .longPressed⟩⟩ =
        ⟨.resolved, some ⟨A, .longPressed⟩⟩ := by
  constructor
  · simp [MButton.dinit, MButton.step]
  · induction ups with
    | nil => rfl
    | cons t ts ih =>
      rw [List.foldl_cons,
        MButton.step_resolved ⟨.resolved, some ⟨A, .longPressed⟩⟩
          (.edge A .high t) rfl]
      exact ih

/-- Claim C8 (processed is a safe acknowledgement): when no action is
pending, `processed()` changes nothing — so any later press sequence
unfolds exactly as without the extra call — and when an action is
pending it clears the pending action and the pin lock and returns the
detector to Idle. -/
theorem c8_processed (d : MButton.Detector) :
    (MButton.toProcess d = false → MButton.processed d = d) ∧
    (MButton.toProcess d = true → MButton.processed d = ⟨.idle, none⟩) := by
  obtain ⟨ph, pe⟩ := d
  cases ph <;> simp [MButton.toProcess, MButton.processed]

theorem c8_processed_witness :
    MButton.processed MButton.dinit = MButton.dinit ∧
      MButton.processed ⟨.resolved, some ⟨13, .longPressed⟩⟩ =
        (⟨.idle, none⟩ : MButton.Detector) :=
  ⟨(c8_processed MButton.dinit).1 rfl,
   (c8_processed ⟨.resolved, some ⟨13, .longPressed⟩⟩).2 rfl⟩

/-- Claim C4 fails as stated at the boundary n = Size(): on a capacity-2
buffer holding the single element 7, `Get(&t, 1)` with `t = 42` passes the
guard `n < 0 || n > size`, reads the storage slot just past the logical
contents, and overwrites `t` with the uninitialised cell (0 here), even
though `1 = Size()` lies outside `0 <= n < Size()`. -/
theorem c4_counterexample :
    ((RingBuffer.init Int 2 fun _ => 0).Push 7).size = 1 ∧
      ((RingBuffer.init Int 2 fun _ => 0).Push 7).Get 42 1 = 0 := by
  constructor <;> decide

/-- Claim C4 amended: `Get(t, n)` leaves `*t` unchanged exactly when
`n < 0` or `n > Size()` (so the guard admits `n = Size()` as well); for
`0 ≤ n < Size()` it copies the n-th logical element from head into `*t`,
and at `n = Size()` it reads the storage cell at the tail position, one
past the logical contents. -/
theorem c4_get_bounds (rb : RingBuffer T N) (t : T) (n : Int) (hwf : rb.WF) :
    (n < 0 ∨ n > rb.size → rb.Get t n = t) ∧
    (0 ≤ n → n < rb.size → rb.Get t n = rb.toList.getD n.toNat t) ∧
    rb.Get t rb.size = rb.buffer rb.pTail := by
  obtain ⟨hH, hT, h0, hsN, htl⟩ := hwf
  have hN : 0 < N := by omega
  refine ⟨?_, ?_, ?_⟩
  · intro h
    simp [RingBuffer.Get, h]
  · intro hn0 hns
    have hcond : ¬ (n < 0 ∨ n > rb.size) := by omega
    have htn : n.toNat < rb.size.toNat := by omega
    have hwrap := RingBuffer.wrap_sub_eq_mod N (rb.pHead + n.toNat) hN (by omega)
    simp only [RingBuffer.Get, hcond, if_false, hwrap, RingBuffer.toList,
      List.getD_eq_getElem?_getD, List.getElem?_map, List.getElem?_range, htn]
    simp
  · have hcond : ¬ (rb.size < 0 ∨ rb.size > rb.size) := by omega
    have hwrap := RingBuffer.wrap_sub_eq_mod N (rb.pHead + rb.size.toNat) hN
      (by omega)
    simp only [RingBuffer.Get, hcond, if_false, hwrap, htl]

theorem c4_get_bounds_witness :
    ((RingBuffer.init Int 2 fun _ => 0).Push 7).Get 42 5 = 42 ∧
      ((RingBuffer.init Int 2 fun _ => 0).Push 7).Get 42 0 =
        ((RingBuffer.init Int 2 fun _ => 0).Push 7).toList.getD 0 42 :=
  ⟨(c4_get_bounds ((RingBuffer.init Int 2 fun _ => 0).Push 7) 42 5
      (by refine ⟨?_, ?_, ?_, ?_, ?_⟩ <;> decide)).1 (by decide),
   (c4_get_bounds ((RingBuffer.init Int 2 fun _ => 0).Push 7) 42 0
      (by refine ⟨?_, ?_, ?_, ?_, ?_⟩ <;> decide)).2.1 (by decide) (by decide)⟩

/-- Claim C5 (push policy): calling `Push` on a full buffer is a silent
no-op that returns a state equal to the old one in every component — size,
stored elements and their order included; on a non-full buffer, `Push`
writes the item into the tail slot, leaves all other slots and the head
untouched, increments `Size()` by exactly one, and (on a well-formed
buffer) appends the item at the back of the logical contents. -/
theorem c5_push (rb : RingBuffer T N) (t : T) :
    (rb.size = (N : Int) → rb.Push t = rb) ∧
    (rb.size < (N : Int) →
      (rb.Push t).size = rb.size + 1 ∧
      (rb.Push t).pHead = rb.pHead ∧
      (rb.Push t).buffer rb.pTail = t ∧
      (∀ i, i ≠ rb.pTail → (rb.Push t).buffer i = rb.buffer i) ∧
      (rb.WF → (rb.Push t).toList = rb.toList ++ [t])) := by
  constructor
  · exact RingBuffer.push_full rb t
  · intro hlt
    have hne : ¬ rb.size = (N : Int) := by omega
    refine ⟨?_, ?_, ?_, ?_, ?_⟩
    · simp [RingBuffer.Push, hne]
    · simp [RingBuffer.Push, hne]
    · simp [RingBuffer.Push, hne]
    · intro i hi
      simp [RingBuffer.Push, hne, hi]
    · intro hwf
      exact (RingBuffer.push_sim rb t hwf hlt).2

theorem c5_push_witness :
    ((RingBuffer.init Int 1 fun _ => 0).Push 5).Push 7 =
        (RingBuffer.init Int 1 fun _ => 0).Push 5 ∧
      ((RingBuffer.init Int 1 fun _ => 0).Push 5).size =
        (RingBuffer.init Int 1 fun _ => 0).size + 1 :=
  ⟨(c5_push ((RingBuffer.init Int 1 fun _ => 0).Push 5) 7).1 (by decide),
   ((c5_push (RingBuffer.init Int 1 fun _ => 0) 5).2 (by decide)).1⟩

/-- Claim C6 (FIFO): for every call sequence obeying the documented
preconditions (each `Push` with `Size() < N`, each `Pop` with
`Size() > 0`) run from a fresh buffer, the values delivered by the pops
are exactly those of the abstract list queue — elements come out in push
order, across wrap-around of the circular storage — the final logical
contents match the abstract queue, and the size never exceeds the fixed
capacity N. -/
theorem c6_fifo (T : Type) (N : Nat) (mem : Nat → T) (d : T)
    (ops : List (RingBuffer.BufOp T)) (hN : 0 < N)
    (hleg : RingBuffer.Legal N ops []) :
    (RingBuffer.implExec d ops (RingBuffer.init T N mem)).2 =
        (RingBuffer.specExec d ops []).2 ∧
      (RingBuffer.implExec d ops (RingBuffer.init T N mem)).1.toList =
        (RingBuffer.specExec d ops []).1 ∧
      (RingBuffer.implExec d ops (RingBuffer.init T N mem)).1.size ≤
        (N : Int) := by
  have hwf := RingBuffer.wf_init T N mem hN
  have hleg2 : RingBuffer.Legal N ops (RingBuffer.init T N mem).toList := by
    rw [RingBuffer.toList_init]
    exact hleg
  obtain ⟨ha, hb, hc⟩ := RingBuffer.exec_sim d ops (RingBuffer.init T N mem)
    hwf hleg2
  rw [RingBuffer.toList_init] at hb hc
  exact ⟨hc, hb, ha.2.2.2.1⟩

theorem c6_fifo_witness :
    (RingBuffer.implExec (0 : Int)
        [.push 10, .push 20, .pop, .push 30, .pop, .pop]
        (RingBuffer.init Int 2 fun _ => 0)).2 =
      (RingBuffer.specExec (0 : Int)
        [.push 10, .push 20, .pop, .push 30, .pop, .pop] []).2 :=
  (c6_fifo Int 2 (fun _ => 0) 0 [.push 10, .push 20, .pop, .push 30, .pop, .pop]
    (by decide) (by simp [RingBuffer.Legal])).1

/-- Claim C7 (size invariant): starting from a freshly constructed buffer,
after any sequence of `Push`, `Pop` and `Get` calls with any arguments,
`0 ≤ Size() ≤ N` holds and `Size()` equals the number of successful
pushes minus the number of successful pops. -/
theorem c7_size_invariant (T : Type) (N : Nat) (mem : Nat → T) (d : T)
    (ops : List (RingBuffer.RbOp T)) :
    0 ≤ (RingBuffer.rbExec d ops (RingBuffer.init T N mem)).size ∧
      (RingBuffer.rbExec d ops (RingBuffer.init T N mem)).size ≤ (N : Int) ∧
      (RingBuffer.rbExec d ops (RingBuffer.init T N mem)).size =
        ((RingBuffer.succCounts d ops (RingBuffer.init T N mem)).1 : Int) -
          ((RingBuffer.succCounts d ops (RingBuffer.init T N mem)).2 : Int) := by
  obtain ⟨ha, hb, hc⟩ := RingBuffer.size_counts d ops (RingBuffer.init T N mem)
    (by simp [RingBuffer.init]) (by simp [RingBuffer.init])
  refine ⟨ha, hb, ?_⟩
  have hz : (RingBuffer.init T N mem).size = 0 := rfl
  rw [hz] at hc
  omega

/-- Claim C9 fails as stated: per the spec model, `_oldNum` (the locked
pin) is written in interrupt context and cleared by `processed()` from
main-loop context, yet `MButton.h` declares it without `volatile`; the
same holds for `_okButton`, `_oldTime` and `_oldLevel`. -/
theorem c9_counterexample :
    "_oldNum" ∈ MButton.sharedFields ∧
      (⟨"_oldNum", false⟩ : MButton.FieldDecl) ∈ MButton.mbuttonFields ∧
      ¬ (∀ f ∈ MButton.mbuttonFields,
          f.name ∈ MButton.sharedFields → f.isVolatile = true) := by
  refine ⟨by decide, by decide, ?_⟩
  intro h
  exact absurd (h ⟨"_oldNum", false⟩ (by decide) (by decide)) (by decide)

/-- Claim C9 amended: among the shared detector state fields declared in
`MButton.h`, exactly the three read by the poll accessors (`_num`,
`_toProcess`, `_action`) are marked `volatile`; the sequence-tracking
fields `_okButton`, `_oldNum`, `_oldTime`, `_oldLevel` are not. -/
theorem c9_volatile_fields :
    ∀ f ∈ MButton.mbuttonFields,
      (f.isVolatile = true ↔
        f.name ∈ (["_num", "_toProcess", "_action"] : List String)) := by
  decide

theorem c9_volatile_fields_witness :
    (⟨"_num", true⟩ : MButton.FieldDecl) ∈ MButton.mbuttonFields ∧
      ((⟨"_num", true⟩ : MButton.FieldDecl).isVolatile = true ↔
        "_num" ∈ (["_num", "_toProcess", "_action"] : List String)) :=
  ⟨by decide, c9_volatile_fields ⟨"_num", true⟩ (by decide)⟩

/-- Claim C10 (fixed pin set): a pin has an attachable statically-declared
interrupt entry point exactly when it lies in the set {12, 13, 14, 27},
and each pin is served by exactly one declared entry point (none outside
the set), so `begin()` cannot monitor any other pin without a new entry
point being added to the class. -/
theorem c10_fixed_pins (p : Nat) :
    ((MButton.attachableISR p).isSome ↔ p ∈ ([12, 13, 14, 27] : List Nat)) ∧
      (MButton.isrEntryPoints.filter fun e => e.2 == p).length =
        (if p ∈ ([12, 13, 14, 27] : List Nat) then 1 else 0) := by
  by_cases h12 : p = 12
  · subst h12; decide
  by_cases h13 : p = 13
  · subst h13; decide
  by_cases h14 : p = 14
  · subst h14; decide
  by_cases h27 : p = 27
  · subst h27; decide
  have b12 : ((12 : Nat) == p) = false := by simp; omega
  have b13 : ((13 : Nat) == p) = false := by simp; omega
  have b14 : ((14 : Nat) == p) = false := by simp; omega
  have b27 : ((27 : Nat) == p) = false := by simp; omega
  have hmem : ¬ p ∈ ([12, 13, 14, 27] : List Nat) := by
    simp
    omega
  simp [MButton.attachableISR, MButton.isrEntryPoints, List.find?,
    List.filter, b12, b13, b14, b27, hmem]

end SolarSupervisor
